import Mathlib

/-
  Verification of the Statelit specification against a shallow embedding of
  the repository's core modules:

  * `statelit/utils/mro.py`  — type-directed dispatch (C3 linearization with
    enum priority, generic-parameter depth scoring, optional unwrapping);
  * `statelit/state/base.py` — the stateful-node synchronization protocol;
  * `statelit/state/model.py` and `statelit/core.py` — the composite model
    node and the delta-application controller.

  Python runtime types are embedded as an explicit tree (`PyClass` for plain
  classes carrying their base lists, `PyTy` for the full type-descriptor
  language including parameterized generics, unions and the `Any`/`any`
  wildcards).  Recursive algorithms translated from the source use an
  explicit fuel parameter (structural on `Nat`) so that every definition is
  executable and reduces inside `decide`/`rfl`; wrappers supply a fuel that
  strictly dominates the recursion depth of the Python original, so the
  distinguished `fuelExhausted` error is unreachable for those wrappers.

  Python exceptions are embedded as `Except` errors; the Python session state
  is embedded as a total function `String → Option α`.
-/

/-- A Python class object: its name, its direct bases (`__bases__`, in
declaration order) and whether `hasattr(cls, '__abstractmethods__')` holds
(true only for ABCs; false for every class relevant to statelit's registries).
Class identity is structural: distinct runtime classes are embedded with
distinct names. -/
inductive PyClass where
  | mk (name : String) (bases : List PyClass) (isAbc : Bool)

/-- Direct bases of a class (`cls.__bases__`). -/
def PyClass.bases : PyClass → List PyClass
  | .mk _ b _ => b

/-- The name of a class. -/
def PyClass.clsName : PyClass → String
  | .mk n _ _ => n

/-- Whether `hasattr(cls, '__abstractmethods__')` holds. -/
def PyClass.abcFlag : PyClass → Bool
  | .mk _ _ f => f

mutual

/-- Decidable equality for `PyClass`, by mutual structural recursion with
lists of classes (the automatic deriving does not handle the nested
occurrence of `List PyClass`). -/
def PyClass.decEq : (a b : PyClass) → Decidable (a = b)
  | .mk n1 b1 f1, .mk n2 b2 f2 =>
    match String.decEq n1 n2, PyClass.decEqList b1 b2, Bool.decEq f1 f2 with
    | isTrue h1, isTrue h2, isTrue h3 => isTrue (by rw [h1, h2, h3])
    | isFalse h1, _, _ => isFalse (by intro h; injection h; contradiction)
    | _, isFalse h2, _ => isFalse (by intro h; injection h; contradiction)
    | _, _, isFalse h3 => isFalse (by intro h; injection h; contradiction)

/-- Decidable equality for lists of classes. -/
def PyClass.decEqList : (as bs : List PyClass) → Decidable (as = bs)
  | [], [] => isTrue rfl
  | [], _ :: _ => isFalse (by intro h; injection h)
  | _ :: _, [] => isFalse (by intro h; injection h)
  | a :: as, b :: bs =>
    match PyClass.decEq a b, PyClass.decEqList as bs with
    | isTrue h1, isTrue h2 => isTrue (by rw [h1, h2])
    | isFalse h1, _ => isFalse (by intro h; injection h; contradiction)
    | _, isFalse h2 => isFalse (by intro h; injection h; contradiction)

end

instance : DecidableEq PyClass := PyClass.decEq

mutual

/-- `issubclass(c, s)` for ordinary classes: reflexive-transitive closure of
the direct-base relation.  (No virtual/registered ABC subclassing exists in
the embedded universe.) -/
def isSubclassOf (c s : PyClass) : Bool :=
  match c with
  | .mk n bs f => decide (PyClass.mk n bs f = s) || anyIsSubclassOf bs s

/-- `∃ b ∈ bs, issubclass(b, s)`, as a Bool. -/
def anyIsSubclassOf : List PyClass → PyClass → Bool
  | [], _ => false
  | b :: bs, s => isSubclassOf b s || anyIsSubclassOf bs s

end

mutual

/-- An executable structural size for classes, used to supply fuel to the
linearization recursion (the automatically generated `SizeOf` instance of a
nested inductive has no executable code). -/
def PyClass.psize : PyClass → Nat
  | .mk _ bs _ => PyClass.psizeList bs + 1

/-- Executable structural size of a list of classes. -/
def PyClass.psizeList : List PyClass → Nat
  | [] => 0
  | b :: bs => PyClass.psize b + PyClass.psizeList bs + 1

end

/-- A Python type descriptor as fed to the dispatch engine: a plain class, a
parameterized generic (`origin[args…]`, e.g. `List[int]` with origin the
runtime class `list`), a union (`Union[args…]`; `Optional[T] = Union[T,
NoneType]`), the bare `typing.Union` special form (what `get_origin` returns
on a union), `typing.Any`, and the builtin function `any` (both accepted as
wildcards by the source). -/
inductive PyTy where
  | cls (c : PyClass)
  | generic (origin : PyClass) (args : List PyTy)
  | union (args : List PyTy)
  | unionForm
  | anyTy
  | anyFn

mutual

/-- Decidable equality for `PyTy` (nested lists handled manually). -/
def PyTy.decEq : (a b : PyTy) → Decidable (a = b)
  | .cls c1, .cls c2 =>
    match PyClass.decEq c1 c2 with
    | isTrue h => isTrue (by rw [h])
    | isFalse h => isFalse (by intro hh; injection hh; contradiction)
  | .generic o1 a1, .generic o2 a2 =>
    match PyClass.decEq o1 o2, PyTy.decEqList a1 a2 with
    | isTrue h1, isTrue h2 => isTrue (by rw [h1, h2])
    | isFalse h1, _ => isFalse (by intro hh; injection hh; contradiction)
    | _, isFalse h2 => isFalse (by intro hh; injection hh; contradiction)
  | .union a1, .union a2 =>
    match PyTy.decEqList a1 a2 with
    | isTrue h => isTrue (by rw [h])
    | isFalse h => isFalse (by intro hh; injection hh; contradiction)
  | .unionForm, .unionForm => isTrue rfl
  | .anyTy, .anyTy => isTrue rfl
  | .anyFn, .anyFn => isTrue rfl
  | .cls _, .generic _ _ => isFalse (by intro hh; injection hh)
  | .cls _, .union _ => isFalse (by intro hh; injection hh)
  | .cls _, .unionForm => isFalse (by intro hh; injection hh)
  | .cls _, .anyTy => isFalse (by intro hh; injection hh)
  | .cls _, .anyFn => isFalse (by intro hh; injection hh)
  | .generic _ _, .cls _ => isFalse (by intro hh; injection hh)
  | .generic _ _, .union _ => isFalse (by intro hh; injection hh)
  | .generic _ _, .unionForm => isFalse (by intro hh; injection hh)
  | .generic _ _, .anyTy => isFalse (by intro hh; injection hh)
  | .generic _ _, .anyFn => isFalse (by intro hh; injection hh)
  | .union _, .cls _ => isFalse (by intro hh; injection hh)
  | .union _, .generic _ _ => isFalse (by intro hh; injection hh)
  | .union _, .unionForm => isFalse (by intro hh; injection hh)
  | .union _, .anyTy => isFalse (by intro hh; injection hh)
  | .union _, .anyFn => isFalse (by intro hh; injection hh)
  | .unionForm, .cls _ => isFalse (by intro hh; injection hh)
  | .unionForm, .generic _ _ => isFalse (by intro hh; injection hh)
  | .unionForm, .union _ => isFalse (by intro hh; injection hh)
  | .unionForm, .anyTy => isFalse (by intro hh; injection hh)
  | .unionForm, .anyFn => isFalse (by intro hh; injection hh)
  | .anyTy, .cls _ => isFalse (by intro hh; injection hh)
  | .anyTy, .generic _ _ => isFalse (by intro hh; injection hh)
  | .anyTy, .union _ => isFalse (by intro hh; injection hh)
  | .anyTy, .unionForm => isFalse (by intro hh; injection hh)
  | .anyTy, .anyFn => isFalse (by intro hh; injection hh)
  | .anyFn, .cls _ => isFalse (by intro hh; injection hh)
  | .anyFn, .generic _ _ => isFalse (by intro hh; injection hh)
  | .anyFn, .union _ => isFalse (by intro hh; injection hh)
  | .anyFn, .unionForm => isFalse (by intro hh; injection hh)
  | .anyFn, .anyTy => isFalse (by intro hh; injection hh)

/-- Decidable equality for lists of type descriptors. -/
def PyTy.decEqList : (as bs : List PyTy) → Decidable (as = bs)
  | [], [] => isTrue rfl
  | [], _ :: _ => isFalse (by intro h; injection h)
  | _ :: _, [] => isFalse (by intro h; injection h)
  | a :: as, b :: bs =>
    match PyTy.decEq a b, PyTy.decEqList as bs with
    | isTrue h1, isTrue h2 => isTrue (by rw [h1, h2])
    | isFalse h1, _ => isFalse (by intro h; injection h; contradiction)
    | _, isFalse h2 => isFalse (by intro h; injection h; contradiction)

end

instance : DecidableEq PyTy := PyTy.decEq

example : isSubclassOf (.mk "A" [.mk "B" [] false] false) (.mk "B" [] false) = true := by decide

/-- View a type descriptor as a plain class, if it is one ("is `cls` a class
object" — what `hasattr(typ, '__mro__')` tests, since `typing` generic
aliases do not forward dunder attributes). -/
def asClass : PyTy → Option PyClass
  | .cls c => some c
  | _ => none

/-- `pydantic.utils.get_origin`: the runtime origin class of a parameterized
generic (e.g. `list` for `List[int]`), the `typing.Union` special form for a
union, and `None` otherwise. -/
def get_origin : PyTy → Option PyTy
  | .generic o _ => some (.cls o)
  | .union _ => some .unionForm
  | _ => none

/-- `pydantic.utils.get_args`: type arguments of a generic or union, `()`
otherwise. -/
def get_args : PyTy → List PyTy
  | .generic _ args => args
  | .union args => args
  | _ => []

/-- `pydantic.utils.lenient_issubclass(cls, class_or_tuple)` at the call
sites of `statelit.utils.mro` whose second argument is a plain class (the
`Enum` checks, the `_compose_mro` relatedness filter — where the first
argument is guarded to be a class — and the class-vs-class checks inside the
linearization): `isinstance(cls, type) and issubclass(cls, s)`, which is
`False` whenever the first argument is not a class. -/
def lenientIssubclass : PyTy → PyTy → Bool
  | .cls a, .cls b => isSubclassOf a b
  | _, _ => false

/-- Errors raised by the dispatch engine.  `fuelExhausted` is this
embedding's artifact for under-supplied fuel and is unreachable from the
fuel-supplying wrappers; the remaining constructors embed the Python
`RuntimeError`s of `statelit/utils/mro.py` ("Inconsistent hierarchy",
"Ambiguous dispatch: {match} or {t}", the multi-candidate generic-dispatch
error listing the tied keys) plus the `AttributeError`/`TypeError` crashes
Python itself would raise on degenerate inputs (`cls.__mro__` on a
non-class; `issubclass` against a non-class such as a union form). -/
inductive DispatchError where
  | fuelExhausted
  | inconsistentHierarchy
  | ambiguousDispatch (m t : PyClass)
  | ambiguousGeneric (candidates : List PyTy)
  | attributeError
  | typeError
deriving DecidableEq

/-- Python `list.remove(x)`: drop the first occurrence of `x`. -/
def eraseFirst : List PyClass → PyClass → List PyClass
  | [], _ => []
  | a :: l, b => if a = b then l else a :: eraseFirst l b

/-- `_c3_merge(sequences)`: merge MROs with the C3 algorithm.  Each step
purges empty sequences, looks for the first head that appears in no tail,
errors with "Inconsistent hierarchy" when no head qualifies, and otherwise
emits that head and removes it from every sequence head.  Each successful
step shrinks the total element count, so fuel larger than that count is
adequate. -/
def c3MergeF : Nat → List (List PyClass) → Except DispatchError (List PyClass)
  | 0, _ => .error .fuelExhausted
  | fuel + 1, sequences =>
    let seqs := sequences.filter (fun s => !s.isEmpty)
    if seqs.isEmpty then .ok []
    else
      match (seqs.filterMap List.head?).find? (fun c => seqs.all (fun s2 => !(decide (c ∈ s2.tail)))) with
      | none => .error .inconsistentHierarchy
      | some c =>
        match c3MergeF fuel (seqs.map (fun s => if s.head? = some c then s.tail else s)) with
        | .ok result => .ok (c :: result)
        | .error e => .error e

/-- `_c3_mro(cls, abcs)`: extended C3 linearization.  The boundary splits
`cls.__bases__` at the last explicit ABC; `abcs` entries introduced by `cls`
itself become abstract bases and are removed (first occurrence each) from
the `abcs` list passed to the recursive calls.  The recursion follows the
class structure, so fuel `sizeOf cls + abcs.length + 1` is adequate (the
wrapper `c3Mro` supplies it). -/
def c3MroF : Nat → PyClass → List PyClass → Except DispatchError (List PyClass)
  | 0, _, _ => .error .fuelExhausted
  | fuel + 1, cls, abcs0 =>
    let bases := cls.bases
    let boundary :=
      match bases.reverse.findIdx? PyClass.abcFlag with
      | some i => bases.length - i
      | none => 0
    let explicit_bases := bases.take boundary
    let other_bases := bases.drop boundary
    let abstract_bases := abcs0.filter (fun base =>
      isSubclassOf cls base && !(bases.any (fun b => isSubclassOf b base)))
    let abcs := abstract_bases.foldl eraseFirst abcs0
    match explicit_bases.mapM (fun b => c3MroF fuel b abcs) with
    | .error e => .error e
    | .ok explicit_c3_mros =>
      match abstract_bases.mapM (fun b => c3MroF fuel b abcs) with
      | .error e => .error e
      | .ok abstract_c3_mros =>
        match other_bases.mapM (fun b => c3MroF fuel b abcs) with
        | .error e => .error e
        | .ok other_c3_mros =>
          let seqs := [[cls]] ++ explicit_c3_mros ++ abstract_c3_mros ++ other_c3_mros
            ++ [explicit_bases] ++ [abstract_bases] ++ [other_bases]
          c3MergeF ((seqs.map List.length).sum + 1) seqs

/-- `_c3_mro` with adequate fuel. -/
def c3Mro (cls : PyClass) (abcs : List PyClass) : Except DispatchError (List PyClass) :=
  c3MroF (PyClass.psize cls + abcs.length + 1) cls abcs

/-- `cls.__mro__` as an attribute access on an already-constructed class: in
Python it always succeeds, because a class whose linearization fails cannot
be created.  On (unconstructible) inconsistent hierarchies this embedding
returns `[]`. -/
def mroOf (c : PyClass) : List PyClass :=
  match c3Mro c [] with
  | .ok m => m
  | .error _ => []

/-- `typ.__subclasses__()`: the direct subclasses of `typ` among the ambient
universe of defined classes (the interpreter's registry), in definition
order. -/
def pySubclassesOf (c : PyClass) (univ : List PyClass) : List PyClass :=
  univ.filter (fun s => decide (c ∈ s.bases))

/-- `_compose_mro(cls, types)`: the method resolution order of `cls` with
related registry keys inserted as virtual ABCs.  `types` entries that are not
classes (`hasattr(typ, '__mro__')` fails) or are unrelated to `cls` are
dropped; strict bases of other entries are dropped; the remaining entries
(all classes, thanks to the `__mro__` guard — the `filterMap asClass` below
is the identity on them) are ordered using their implemented subclasses and
handed to `_c3_mro` as `abcs`.  A non-class `cls` raises `AttributeError` at
`cls.__mro__`.  The nested `is_related(typ)` of `_compose_mro` is the
following predicate. -/
def composeIsRelated (cls : PyTy) (bases : List PyClass) (typ : PyTy) : Bool :=
  !(match asClass typ with | some d => decide (d ∈ bases) | none => false)
  && (asClass typ).isSome && lenientIssubclass cls typ

/-- The nested `is_strict_base(typ)` of `_compose_mro`: `typ` is a strict
base of some other remaining entry. -/
def composeIsStrictBase (types1 : List PyTy) (typ : PyTy) : Bool :=
  types1.any (fun other =>
    decide (typ ≠ other)
    && (match asClass typ, asClass other with
        | some tc, some oc => decide (tc ∈ mroOf oc)
        | _, _ => false))

def composeMro (cls : PyTy) (types0 : List PyTy) (univ : List PyClass) : Except DispatchError (List PyClass) :=
  match asClass cls with
  | none => .error .attributeError
  | some c =>
    let bases := mroOf c
    let types1 := types0.filter (composeIsRelated cls bases)
    let types2 := types1.filter (fun typ => !(composeIsStrictBase types1 typ))
    let typesC := types2.filterMap asClass
    let mroAcc := typesC.foldl (fun mroAcc tc =>
      let found := ((pySubclassesOf tc univ).filter
          (fun sub => !(decide (sub ∈ bases)) && isSubclassOf c sub)).map
        (fun sub => (mroOf sub).filter (fun s => decide (s ∈ typesC)))
      if found.isEmpty then mroAcc ++ [tc]
      else
        (found.mergeSort (fun a b => b.length ≤ a.length)).foldl
          (fun acc sub => sub.foldl
            (fun acc2 subcls => if subcls ∈ acc2 then acc2 else acc2 ++ [subcls]) acc)
          mroAcc) []
    c3Mro c mroAcc

/-- A converter registry: a Python `dict` keyed by type descriptors, embedded
as its (unique-keyed, insertion-ordered) entry list. -/
def Registry (V : Type) : Type := List (PyTy × V)

/-- `registry[k]` / `registry.get(k)`: first entry with key `k`. -/
def lookupReg {V : Type} (R : Registry V) (k : PyTy) : Option V :=
  (R.find? (fun kv => decide (kv.1 = k))).map (fun kv => kv.2)

/-- `k in registry`. -/
def memKeys {V : Type} (R : Registry V) (k : PyTy) : Bool :=
  (lookupReg R k).isSome

/-- The walk of `_find_single_impl` over the composed MRO: remember the first
linearization entry present in the registry; at the immediately following
entry, raise "Ambiguous dispatch" when that entry is an equally matching,
unrelated implicit ABC; finally return `registry.get(match)`. -/
def findSingleLoop {V : Type} (R : Registry V) (clsMro : List PyClass) :
    List PyClass → Option PyClass → Except DispatchError (Option V)
  | [], m =>
    .ok (match m with
         | some t => lookupReg R (.cls t)
         | none => none)
  | t :: _, some m =>
    if memKeys R (.cls t) && !(decide (t ∈ clsMro)) && !(decide (m ∈ clsMro))
        && !(isSubclassOf m t) then
      .error (.ambiguousDispatch m t)
    else
      .ok (lookupReg R (.cls m))
  | t :: rest, none =>
    findSingleLoop R clsMro rest (if memKeys R (.cls t) then some t else none)

/-- `_find_single_impl(cls, registry)`: best matching implementation for
`cls` via the composed linearization. -/
def findSingleImpl {V : Type} (cls : PyTy) (R : Registry V) (univ : List PyClass) :
    Except DispatchError (Option V) :=
  match asClass cls with
  | none => .error .attributeError
  | some c =>
    match composeMro cls (R.map Prod.fst) univ with
    | .error e => .error e
    | .ok mro => findSingleLoop R (mroOf c) mro none

mutual

/-- Executable structural size for type descriptors (fuel for the depth
recursion). -/
def PyTy.psize : PyTy → Nat
  | .cls _ => 1
  | .generic _ args => PyTy.psizeList args + 2
  | .union args => PyTy.psizeList args + 2
  | .unionForm => 1
  | .anyTy => 1
  | .anyFn => 1

/-- Executable structural size of a list of type descriptors. -/
def PyTy.psizeList : List PyTy → Nat
  | [] => 0
  | t :: ts => PyTy.psize t + PyTy.psizeList ts + 1

end

/-- `pydantic.utils.lenient_issubclass(cls, supercls)` at the call sites
inside the depth-scoring recursion, where the second argument may fail to be
a class: when the first argument is not a class, `isinstance(cls, type)`
short-circuits to `False`; when the first argument is a class but the second
is not (a union form, a wildcard, a generic alias), `issubclass` raises
`TypeError`, which pydantic re-raises because the first argument is not a
generic alias. -/
def pyLenientIssubclassE : PyTy → PyTy → Except DispatchError Bool
  | .cls a, .cls b => .ok (isSubclassOf a b)
  | .cls _, _ => .error .typeError
  | _, _ => .ok false

/-- The treat-`any`-generically preamble of
`_lenient_issubclass_respect_origin_plus_depth`: a type whose argument tuple
is exactly `(Any,)` or `(any,)` is collapsed to its bare origin with origin
reset to `None`; otherwise the type keeps its `get_origin`. -/
def wildcardCollapse (t : PyTy) : PyTy × Option PyTy :=
  match get_origin t with
  | some o =>
    if get_args t = [PyTy.anyTy] ∨ get_args t = [PyTy.anyFn] then (o, none)
    else (t, some o)
  | none => (t, none)

/-- `_lenient_issubclass_respect_origin_plus_depth(cls, supercls, depth)`:
recursive compatibility check for (possibly generic) type descriptors,
accumulating a total match depth.  Structural on the fuel; the wrapper below
supplies adequate fuel. -/
def lenientDepthF : Nat → PyTy → PyTy → Nat → Except DispatchError (Nat × Bool)
  | 0, _, _, _ => .error .fuelExhausted
  | fuel + 1, cls0, supercls0, depth =>
    match wildcardCollapse cls0, wildcardCollapse supercls0 with
    | (cls, some co), (supercls, some so) =>
      match pyLenientIssubclassE co so with
      | .error e => .error e
      | .ok false => .ok (depth, false)
      | .ok true =>
        if (get_args cls).length ≠ (get_args supercls).length then .ok (depth, false)
        else
          ((get_args cls).zip (get_args supercls)).foldlM
            (fun (acc : Nat × Bool) p =>
              if acc.2 then
                match lenientDepthF fuel p.1 p.2 1 with
                | .error e => .error e
                | .ok (cd, true) => .ok (acc.1 + cd, true)
                | .ok (_, false) => .ok (depth, false)
              else .ok acc)
            (depth, true)
    | (_, some co), (supercls, none) => lenientDepthF fuel co supercls depth
    | (_, none), (_, some _) => .ok (depth, false)
    | (cls, none), (supercls, none) =>
      if supercls = PyTy.anyTy ∨ supercls = PyTy.anyFn then .ok (depth, true)
      else
        match pyLenientIssubclassE cls supercls with
        | .error e => .error e
        | .ok b => .ok (depth, b)

/-- `_lenient_issubclass_respect_origin_plus_depth` with adequate fuel (every
recursive call strictly shrinks the first argument). -/
def lenientDepth (cls supercls : PyTy) (depth : Nat) : Except DispatchError (Nat × Bool) :=
  lenientDepthF (PyTy.psize cls + 1) cls supercls depth

/-- `find_implementation_traversing_origins_and_args(cls, registry)`: score
every registry key; keep the keys attaining the maximal valid depth; return
the single survivor, `None` when no key matches, and raise the
multi-candidate `RuntimeError` on a depth tie. -/
def findTraversing {V : Type} (cls : PyTy) (R : Registry V) : Except DispatchError (Option PyTy) :=
  match (R.foldlM
    (fun (st : List PyTy × Int) kv =>
      match lenientDepth cls kv.1 1 with
      | .error e => .error e
      | .ok (depth, is_valid) =>
        .ok (if is_valid then
          if (depth : Int) > st.2 then ([kv.1], (depth : Int))
          else if (depth : Int) = st.2 then (st.1 ++ [kv.1], st.2)
          else st
        else st))
    ([], (-1 : Int)) : Except DispatchError (List PyTy × Int)) with
  | .error e => .error e
  | .ok (filtered, _) =>
    match filtered with
    | [k] => .ok (some k)
    | [] => .ok none
    | ks => .error (.ambiguousGeneric ks)

/-- The runtime class `object`. -/
def objectClass : PyClass := .mk "object" [] false

/-- The runtime class `NoneType` (`type(None)`). -/
def noneClass : PyClass := .mk "NoneType" [objectClass] false

/-- The runtime class `enum.Enum`. -/
def enumClass : PyClass := .mk "Enum" [objectClass] false

/-- `extract_type_from_optional(cls)`: if `cls == Optional[T]` (a union whose
non-`None` members reduce to a single type), return `T`; else return `cls`
unchanged. -/
def extract_type_from_optional (cls : PyTy) : PyTy :=
  if get_origin cls = some PyTy.unionForm then
    match (get_args cls).filter (fun t => decide (t ≠ PyTy.cls noneClass)) with
    | [t] => t
    | _ => cls
  else cls

/-- `find_implementation(cls, registry)`: unwrap a single-type optional; use
the depth-scoring traversal (never the linearization) for generic queries;
otherwise give priority to enum-derived registry keys before falling back to
the full registry.  The Python source tests the sub-registry result for
truthiness; converters are bound callables and hence always truthy, so the
test is `isSome` here. -/
def find_implementation {V : Type} (cls0 : PyTy) (R : Registry V) (univ : List PyClass) :
    Except DispatchError (Option V) :=
  let cls := extract_type_from_optional cls0
  match get_origin cls with
  | some _ =>
    match findTraversing cls R with
    | .error e => .error e
    | .ok k => .ok (k.bind (lookupReg R))
  | none =>
    if lenientIssubclass cls (.cls enumClass) then
      match findSingleImpl cls (R.filter (fun kv => lenientIssubclass kv.1 (.cls enumClass))) univ with
      | .error e => .error e
      | .ok (some v) => .ok (some v)
      | .ok none => findSingleImpl cls R univ
    else findSingleImpl cls R univ

/-- `typing.Optional[T] = Union[T, None]`, following the `typing` module's
construction rules: adding `None` to a union keeps it flat and deduplicated,
and `Optional[None]` collapses to `NoneType` itself. -/
def pyOptional (t : PyTy) : PyTy :=
  match t with
  | .union args =>
    .union (if PyTy.cls noneClass ∈ args then args else args ++ [PyTy.cls noneClass])
  | t => if t = PyTy.cls noneClass then t else .union [t, PyTy.cls noneClass]

/-- Claim-side view of depth scoring: the total depth at which registry key
`k` validly matches query `cls`, if it does. -/
def scoreOf (cls k : PyTy) : Option Nat :=
  match lenientDepth cls k 1 with
  | .ok (d, true) => some d
  | _ => none

/-- Claim-side: scoring `k` against `cls` does not crash. -/
def scoreOk (cls k : PyTy) : Bool :=
  match lenientDepth cls k 1 with
  | .ok _ => true
  | .error _ => false

/-- Claim-side characterization: the registry keys that validly match `cls`
at the maximal total depth, in registry order. -/
def maxDepthKeys {V : Type} (cls : PyTy) (R : Registry V) : List PyTy :=
  match ((R.map Prod.fst).filterMap (scoreOf cls)).max? with
  | none => []
  | some m => (R.map Prod.fst).filter (fun k => scoreOf cls k = some m)

/-- The Streamlit session state: a session-scoped mutable key–value store,
embedded as a total function from keys to optionally-present values.  Store
values are Python objects (`Any`); a single value type `α` plays that role. -/
def Store (α : Type) : Type := String → Option α

/-- `session_state[k] = v`. -/
def Store.set {α : Type} (s : Store α) (k : String) (v : α) : Store α :=
  fun q => if q = k then some v else s q

/-- Python exceptions crossing the delta-application controller:
`pydantic.ValidationError` (raised by `parse_raw`/model construction) and
`KeyError` (raised by a missing session-state key). -/
inductive PyExc where
  | validationError (msg : String)
  | keyError (key : String)
deriving DecidableEq

/-- `statelit.state.base.StatefulObjectBase`: a canonical value with one base
representation key, eager ("replicated") keys and lazy keys backed by the
session store.  The `widget` callback (pure UI) and the `parent` back-pointer
are not needed by any verified property and are omitted; `to_streamlit` /
`from_streamlit` are the (possibly overridden) serialization callbacks, with
parsing allowed to raise. -/
structure StatefulObjectBase (α : Type) where
  name : Option String
  base_state_key : String
  replicated_state_keys : List String
  lazy_state_keys : List String
  value : α
  initial_value : α
  to_streamlit : α → α
  from_streamlit : α → Except PyExc α

/-- `StatefulObjectBase.sync(update_lazy)`: serialize the current canonical
value once, write it to the base key, and (only) when `update_lazy` also to
every lazy key.  Replicated keys are deliberately not rewritten (the loop
over them is commented out in the source). -/
def StatefulObjectBase.sync {α : Type} (node : StatefulObjectBase α) (store : Store α)
    (update_lazy : Bool) : Store α :=
  let validated_value := node.to_streamlit node.value
  let store := store.set node.base_state_key validated_value
  if update_lazy then
    node.lazy_state_keys.foldl (fun s key => s.set key validated_value) store
  else store

/-- The `value` property setter of `StatefulObjectBase`: chained assignment
`self._value = self.session_state[self.base_state_key] = v` followed by
`self.sync(update_lazy=True)`. -/
def StatefulObjectBase.setValue {α : Type} (node : StatefulObjectBase α) (store : Store α)
    (v : α) : StatefulObjectBase α × Store α :=
  let node := { node with value := v }
  let store := store.set node.base_state_key v
  (node, node.sync store true)

/-- `StatefulObjectBase.set_initial_value(value)`: persist the initial value
under `{base}._initial_value` only when that key is absent; otherwise adopt
the already-persisted one. -/
def set_initial_value {α : Type} (base_state_key : String) (value : α) (store : Store α) :
    α × Store α :=
  let initial_state_key := base_state_key ++ "._initial_value"
  match store initial_state_key with
  | none => (value, store.set initial_state_key value)
  | some w => (w, store)

/-- `StatefulObjectBase.__init__`: attributes are set from the arguments
(`None` key lists default to `[]`), the initial value is persisted via
`set_initial_value`, and the serialized value is written to the base key only
when that key is absent from the session state. -/
def StatefulObjectBase.construct {α : Type} (value : α) (name : Option String)
    (base_state_key : String) (replicated_state_keys lazy_state_keys : Option (List String))
    (to_streamlit : α → α) (from_streamlit : α → Except PyExc α) (store : Store α) :
    StatefulObjectBase α × Store α :=
  let replicated := replicated_state_keys.getD []
  let lazy := lazy_state_keys.getD []
  let (initial, store) := set_initial_value base_state_key value store
  let node : StatefulObjectBase α :=
    { name := name, base_state_key := base_state_key,
      replicated_state_keys := replicated, lazy_state_keys := lazy,
      value := value, initial_value := initial,
      to_streamlit := to_streamlit, from_streamlit := from_streamlit }
  let store :=
    if (store base_state_key).isSome then store
    else store.set base_state_key (to_streamlit value)
  (node, store)

/-- `StatefulObjectBase.all_keys_generator`: the base key, then the
replicated keys, then the lazy keys. -/
def StatefulObjectBase.allKeys {α : Type} (node : StatefulObjectBase α) : List String :=
  node.base_state_key :: (node.replicated_state_keys ++ node.lazy_state_keys)

/-- The fatal error of `next_key` ("Really? Over 100k keys??"). -/
inductive StateExc where
  | keySpaceExhausted
deriving DecidableEq

/-- The probe key `f"{self.base_state_key}._state_ref.{i}"`. -/
def candidateKey {α : Type} (node : StatefulObjectBase α) (i : Nat) : String :=
  node.base_state_key ++ "._state_ref." ++ toString i

/-- The loop body of `next_key`: `for i in range(100_000)` rendered as a
count-up over the probe index `i` with the number of remaining probes as the
structural argument; returns the first candidate key absent from `key_list`,
and raises (the `for`/`else` branch) when the probes are used up. -/
def nextKeyLoop {α : Type} (node : StatefulObjectBase α) (key_list : List String) :
    Nat → Nat → Except StateExc String
  | _, 0 => .error .keySpaceExhausted
  | i, remaining + 1 =>
    let candidate_key := candidateKey node i
    if candidate_key ∈ key_list then nextKeyLoop node key_list (i + 1) remaining
    else .ok candidate_key

/-- `StatefulObjectBase.next_key()`: probe suffixes `0, 1, …, 99999` and
return the first candidate absent from the node's key set (`set(
self.all_keys_generator)`); raise exactly when all 100000 probes are taken. -/
def StatefulObjectBase.next_key {α : Type} (node : StatefulObjectBase α) :
    Except StateExc String :=
  nextKeyLoop node node.allKeys 0 100000

/-- `statelit.state.model.StatelitModel`: a stateful node whose value is a
pydantic object, with one child node per declared field (insertion-ordered).
Child nodes are `StatelitField`s; only their `StatefulObjectBase` interface
(keys, value setter, conversion callbacks) is relevant here.  `getattr`
embeds Python `getattr(self.value, field_name)`; `objClass` embeds
`self.value.__class__(**data)`, i.e. pydantic model construction with its
validation. -/
structure StatelitModel (α : Type) where
  base : StatefulObjectBase α
  fields : List (String × StatefulObjectBase α)
  getattr : α → String → α
  objClass : List (String × α) → Except PyExc α

/-- `StatelitModel.sync(update_lazy)`: the inherited sync on the model's own
representations, then `field.value = getattr(self.value, field_name)` for
every field (each of which runs that field's own setter, cascading a
`sync(update_lazy=True)` on the field's keys). -/
def StatelitModel.sync {α : Type} (m : StatelitModel α) (store : Store α)
    (update_lazy : Bool) : StatelitModel α × Store α :=
  let store := m.base.sync store update_lazy
  let (fields2, store2) := m.fields.foldl
    (fun (acc : List (String × StatefulObjectBase α) × Store α) fp =>
      let (f2, s2) := fp.2.setValue acc.2 (m.getattr m.base.value fp.1)
      (acc.1 ++ [(fp.1, f2)], s2))
    ([], store)
  ({ m with fields := fields2 }, store2)

/-- The `value` setter as dispatched on a `StatelitModel`: the base-class
setter body, whose `self.sync(update_lazy=True)` dynamically dispatches to
`StatelitModel.sync`. -/
def StatelitModel.setValue {α : Type} (m : StatelitModel α) (store : Store α) (v : α) :
    StatelitModel α × Store α :=
  let base := { m.base with value := v }
  let store := store.set base.base_state_key v
  StatelitModel.sync { m with base := base } store true

/-- `StateManager.apply_field_delta(key, field_name, parent)`: rebuild
candidate data for every field — the edited field parsed from the changed
session key, every other field parsed from its own base key — construct a
new whole object, and commit it through the value setter; any exception
(parse failure, model-validation failure, missing key) is caught, surfaced
via `st.error` (the third component), and answered by `parent.value =
original`. -/
def apply_field_delta {α : Type} (m : StatelitModel α) (store : Store α)
    (key field_name : String) : StatelitModel α × Store α × Option PyExc :=
  let original := m.base.value
  let tryResult : Except PyExc α := do
    let data ← m.fields.mapM (fun fp =>
      let slot := if fp.1 = field_name then key else fp.2.base_state_key
      match store slot with
      | none => Except.error (PyExc.keyError slot)
      | some raw => (fp.2.from_streamlit raw).map (fun x => (fp.1, x)))
    m.objClass data
  match tryResult with
  | .ok pydantic_obj =>
    let (m2, s2) := m.setValue store pydantic_obj
    (m2, s2, none)
  | .error e =>
    let (m2, s2) := m.setValue store original
    (m2, s2, some e)

/-- `StateManager.apply_obj_delta(key, parent)`: parse the whole-object JSON
text at the changed key through `parent.from_streamlit` and commit on
success; only `ValidationError` is caught (surfaced, and answered by
`parent.value = original`) — a missing key (`KeyError`) propagates. -/
def apply_obj_delta {α : Type} (m : StatelitModel α) (store : Store α) (key : String) :
    Except PyExc (StatelitModel α × Store α × Option PyExc) :=
  let original := m.base.value
  match store key with
  | none => .error (.keyError key)
  | some raw_json =>
    match m.base.from_streamlit raw_json with
    | .ok pydantic_obj =>
      let (m2, s2) := m.setValue store pydantic_obj
      .ok (m2, s2, none)
    | .error (.validationError msg) =>
      let (m2, s2) := m.setValue store original
      .ok (m2, s2, some (.validationError msg))
    | .error e => .error e

/-- The runtime class `int`. -/
def intClass : PyClass := .mk "int" [objectClass] false

/-- The runtime class `str`. -/
def strClass : PyClass := .mk "str" [objectClass] false

/-- The runtime class `list`. -/
def listClass : PyClass := .mk "list" [objectClass] false

/-- A two-parameter generic origin class `pair` (the spec's `pair<T,U>`). -/
def pairClass : PyClass := .mk "pair" [objectClass] false

/-- A string-backed enum: `class SomeStrEnum(str, Enum)`. -/
def someStrEnum : PyClass := .mk "SomeStrEnum" [strClass, enumClass] false

/-- A plain user class `A`. -/
def aClass : PyClass := .mk "A" [objectClass] false

/-- An ambient universe of defined classes for `__subclasses__`. -/
def exUniv : List PyClass :=
  [objectClass, noneClass, intClass, strClass, listClass, pairClass, enumClass, someStrEnum, aClass]

/-- The fully parameterized query/key `pair[int, int]`. -/
def pairIntInt : PyTy := .generic pairClass [.cls intClass, .cls intClass]

/-- The wildcard key `pair[any, any]`. -/
def pairAnyAny : PyTy := .generic pairClass [.anyFn, .anyFn]

/-- A registry holding both `pair[int, int]` and `pair[any, any]`. -/
def exRegPair : Registry Nat := [(pairIntInt, 1), (pairAnyAny, 2)]

/-- A registry holding both `list[int]` and `list[any]` (single-parameter
generic). -/
def exRegList : Registry Nat :=
  [(.generic listClass [.cls intClass], 1), (.generic listClass [.anyFn], 2)]

/-- A registry with keys `str` and `Enum` (the spec's enum-priority
scenario). -/
def exRegEnum : Registry Nat := [(.cls strClass, 1), (.cls enumClass, 2)]

/-- A registry containing the key `A` verbatim next to a more generic key. -/
def exRegVerbatim : Registry Nat := [(.cls objectClass, 20), (.cls aClass, 10)]

/-- A concrete stateful node: base key `"b"`, one replicated key, one lazy
key. -/
def exNode : StatefulObjectBase String :=
  { name := none, base_state_key := "b", replicated_state_keys := ["r"],
    lazy_state_keys := ["x"], value := "v", initial_value := "v",
    to_streamlit := fun s => s, from_streamlit := fun s => .ok s }

/-- A concrete store with stale entries under the lazy and base keys. -/
def exStore : Store String :=
  fun k => if k = "x" then some "old" else if k = "b" then some "w" else none

/-- A node whose lazy key list contains its own base key `"k"` (constructible
by passing `lazy_state_keys=["k"]` to `StatefulObjectBase.__init__`, or by
committing the base key as a lazy key). -/
def exNodeLazyBase : StatefulObjectBase String :=
  { exNode with
    base_state_key := "k"
    replicated_state_keys := []
    lazy_state_keys := ["k"] }

/-- A store holding a stale value under `"k"`. -/
def exStoreLazyBase : Store String := fun k => if k = "k" then some "w" else none

/-- A concrete composite model with one field whose parses always fail with a
ValidationError, driving the delta controller into its rollback branch. -/
def exModel : StatelitModel String :=
  { base := { exNode with from_streamlit := fun _ => .error (.validationError "bad json") },
    fields := [("a", { exNode with base_state_key := "b.a" })],
    getattr := fun v _ => v,
    objClass := fun _ => .error (.validationError "cross-field constraint") }

/-- A store providing raw representations for the model's keys. -/
def exModelStore : Store String :=
  fun k => if k = "b" ∨ k = "b.a" ∨ k = "edit" then some "raw" else none

theorem Store.set_self {α : Type} (s : Store α) (k : String) (v : α) :
    (s.set k v) k = some v := by
  simp [Store.set]

theorem Store.set_other {α : Type} (s : Store α) {q k : String} (v : α) (h : q ≠ k) :
    (s.set k v) q = s q := by
  simp [Store.set, h]

theorem foldl_set_mem {α : Type} (ks : List String) (s : Store α) (v : α) (k : String)
    (h : k ∈ ks ∨ s k = some v) :
    (ks.foldl (fun st q => st.set q v) s) k = some v := by
  induction ks generalizing s with
  | nil =>
    rcases h with h | h
    · simp at h
    · simpa using h
  | cons a ks ih =>
    simp only [List.foldl_cons]
    apply ih
    rcases h with h | h
    · rcases List.mem_cons.mp h with rfl | h2
      · by_cases hk : k ∈ ks
        · exact Or.inl hk
        · exact Or.inr (Store.set_self s k v)
      · exact Or.inl h2
    · by_cases hk : k = a
      · subst hk; exact Or.inr (Store.set_self s k v)
      · exact Or.inr (by rw [Store.set_other s v hk]; exact h)

/-- C7 (amended): for every stateful node, a lazy key that is distinct from
the node's base key is left untouched by `sync(update_lazy=False)`, while
`sync(update_lazy=True)` overwrites every lazy key with the serialization of
the current canonical value.  (The distinctness proviso is forced by the
counterexample below: the base key is rewritten by every sync, even when it
also appears in the lazy key list.) -/
theorem C7_sync_lazy_keys {α : Type} (node : StatefulObjectBase α) (store : Store α)
    (k : String) :
    (k ∈ node.lazy_state_keys → k ≠ node.base_state_key →
      node.sync store false k = store k) ∧
    (k ∈ node.lazy_state_keys →
      node.sync store true k = some (node.to_streamlit node.value)) := by
  constructor
  · intro _ hne
    simp only [StatefulObjectBase.sync, Bool.false_eq_true, if_false]
    exact Store.set_other store _ hne
  · intro hmem
    simp only [StatefulObjectBase.sync, if_true]
    exact foldl_set_mem _ _ _ _ (Or.inl hmem)

/-- C7, witness: on the concrete node, the untouched-lazy-key and
overwritten-lazy-key conclusions at key `"x"`. -/
theorem C7_sync_lazy_keys_witness :
    (exNode.sync exStore false "x" = exStore "x") ∧
    (exNode.sync exStore true "x" = some (exNode.to_streamlit exNode.value)) :=
  ⟨(C7_sync_lazy_keys exNode exStore "x").1 (by decide) (by decide),
   (C7_sync_lazy_keys exNode exStore "x").2 (by decide)⟩

/-- C7, counterexample to the claim as stated: a node whose lazy key list
contains the base key `"k"` (reachable by passing `lazy_state_keys=["k"]` or
`key="k"` through the public API); `sync(update_lazy=False)` rewrites the
stored value of that lazy key. -/
theorem C7_counterexample :
    "k" ∈ exNodeLazyBase.lazy_state_keys ∧
    exNodeLazyBase.sync exStoreLazyBase false "k" ≠ exStoreLazyBase "k" := by
  constructor
  · decide
  · decide

/-- C8: `sync(update_lazy=False)` is idempotent on the base and eager
(replicated) representations — running it twice with no intervening change
to the canonical value leaves those entries byte-identical to their value
after the first run. -/
theorem C8_sync_idempotent {α : Type} (node : StatefulObjectBase α) (store : Store α)
    (k : String)
    (_h : k = node.base_state_key ∨ k ∈ node.replicated_state_keys) :
    node.sync (node.sync store false) false k = node.sync store false k := by
  simp only [StatefulObjectBase.sync, Bool.false_eq_true, if_false, Store.set]
  split <;> rfl

/-- C8, witness: the base-key instance on the concrete node and store. -/
theorem C8_sync_idempotent_witness :
    exNode.sync (exNode.sync exStore false) false "b" = exNode.sync exStore false "b" :=
  C8_sync_idempotent exNode exStore "b" (Or.inl (by decide))

theorem nextKeyLoop_ok {α : Type} (node : StatefulObjectBase α) (kl : List String) :
    ∀ fuel i k, nextKeyLoop node kl i fuel = .ok k →
      k ∉ kl ∧ ∃ j, j < fuel ∧ k = candidateKey node (i + j) := by
  intro fuel
  induction fuel with
  | zero => intro i k h; simp [nextKeyLoop] at h
  | succ n ih =>
    intro i k h
    simp only [nextKeyLoop] at h
    by_cases hc : candidateKey node i ∈ kl
    · rw [if_pos hc] at h
      obtain ⟨h1, j, hj, hk⟩ := ih (i + 1) k h
      refine ⟨h1, j + 1, by omega, ?_⟩
      rw [hk]
      congr 1
      omega
    · rw [if_neg hc] at h
      injection h with h2
      subst h2
      exact ⟨hc, 0, by omega, by simp⟩

theorem nextKeyLoop_err {α : Type} (node : StatefulObjectBase α) (kl : List String) :
    ∀ fuel i, nextKeyLoop node kl i fuel = .error .keySpaceExhausted ↔
      ∀ j, j < fuel → candidateKey node (i + j) ∈ kl := by
  intro fuel
  induction fuel with
  | zero => intro i; simp [nextKeyLoop]
  | succ n ih =>
    intro i
    simp only [nextKeyLoop]
    by_cases hc : candidateKey node i ∈ kl
    · rw [if_pos hc, ih (i + 1)]
      constructor
      · intro h j hj
        cases j with
        | zero => simpa using hc
        | succ mIdx =>
          have h2 := h mIdx (by omega)
          rw [show i + (mIdx + 1) = i + 1 + mIdx by omega]
          exact h2
      · intro h j hj
        have h2 := h (j + 1) (by omega)
        rw [show i + 1 + j = i + (j + 1) by omega]
        exact h2
    · rw [if_neg hc]
      constructor
      · intro h; exact absurd h (by simp)
      · intro h
        exact absurd (by simpa using h 0 (by omega)) hc

/-- C9: `next_key()` never returns a key colliding with the node's existing
keys; the key it returns is one of the probe candidates with suffix below
100000; and it raises `KeySpaceExhausted` exactly when all 100000 candidate
suffixes are taken. -/
theorem C9_next_key {α : Type} (node : StatefulObjectBase α) :
    (∀ k, node.next_key = .ok k →
      k ∉ node.allKeys ∧ ∃ i, i < 100000 ∧ k = candidateKey node i) ∧
    (node.next_key = .error .keySpaceExhausted ↔
      ∀ i, i < 100000 → candidateKey node i ∈ node.allKeys) := by
  constructor
  · intro k h
    obtain ⟨h1, j, hj, hk⟩ := nextKeyLoop_ok node node.allKeys 100000 0 k h
    exact ⟨h1, j, hj, by simpa using hk⟩
  · have h := nextKeyLoop_err node node.allKeys 100000 0
    simpa using h

/-- C9, witness: the concrete node yields the first probe key, which indeed
collides with none of its keys. -/
theorem C9_next_key_witness :
    exNode.next_key = .ok "b._state_ref.0" ∧ "b._state_ref.0" ∉ exNode.allKeys := by
  have h : exNode.next_key = .ok "b._state_ref.0" := rfl
  exact ⟨h, ((C9_next_key exNode).1 _ h).1⟩

/-- C10: constructing a stateful node over a store that already holds its
base representation leaves that entry unchanged (the serialized initial
value is written only when the base key is absent), and likewise the
persisted `_initial_value` entry is written only on first construction — so
re-construction across re-renders never clobbers existing store state. -/
theorem C10_construct_preserves_store {α : Type} (value : α) (nm : Option String)
    (bkey : String) (rep lz : Option (List String)) (ts : α → α)
    (fs : α → Except PyExc α) (store : Store α) :
    (∀ w, store bkey = some w →
      (StatefulObjectBase.construct value nm bkey rep lz ts fs store).2 bkey = some w) ∧
    (∀ w, store (bkey ++ "._initial_value") = some w →
      (StatefulObjectBase.construct value nm bkey rep lz ts fs store).2
        (bkey ++ "._initial_value") = some w) := by
  constructor
  · intro w hw
    simp only [StatefulObjectBase.construct, set_initial_value]
    cases hisk : store (bkey ++ "._initial_value") with
    | none =>
      have hne : bkey ≠ bkey ++ "._initial_value" := by
        intro hcontra
        rw [← hcontra] at hisk
        rw [hw] at hisk
        exact Option.noConfusion hisk
      simp [Store.set_other _ _ hne, hw]
    | some w0 =>
      simp [hw]
  · intro w hw
    simp only [StatefulObjectBase.construct, set_initial_value, hw]
    cases hbk : store bkey with
    | none =>
      have hne : bkey ++ "._initial_value" ≠ bkey := by
        intro hcontra
        rw [hcontra] at hw
        rw [hbk] at hw
        exact Option.noConfusion hw
      simp [hbk, Store.set_other _ _ hne, hw]
    | some w0 =>
      simp [hbk, hw]

/-- C10, witness: on the concrete store (which holds `"b"`), constructing a
node with base key `"b"` preserves the stored representation. -/
theorem C10_construct_preserves_store_witness :
    (StatefulObjectBase.construct "v" none "b" none none (fun s => s) Except.ok exStore).2 "b"
      = some "w" :=
  (C10_construct_preserves_store "v" none "b" none none (fun s => s) Except.ok exStore).1
    "w" (by decide)

theorem StatelitModel.sync_base {α : Type} (m : StatelitModel α) (store : Store α)
    (update_lazy : Bool) : (m.sync store update_lazy).1.base = m.base := by
  simp only [StatelitModel.sync]

theorem StatelitModel.setValue_value {α : Type} (m : StatelitModel α) (store : Store α)
    (v : α) : (m.setValue store v).1.base.value = v := by
  simp only [StatelitModel.setValue]
  rw [StatelitModel.sync_base]

/-- C1: whenever the delta-application controller takes its validation-failure
branch — for a single-field edit (any parse failure, model-construction
failure or missing key) or for a whole-object edit (a `ValidationError` from
the whole-object parse) — the error is surfaced (`st.error`, the third
component) and the model node's canonical value after the call equals its
pre-edit canonical value: the failed replacement is rolled back. -/
theorem C1_failed_delta_rolls_back {α : Type} (m : StatelitModel α) (store : Store α)
    (key field_name : String) (e : PyExc) (m2 : StatelitModel α) (s2 : Store α) :
    (apply_field_delta m store key field_name = (m2, s2, some e) →
      m2.base.value = m.base.value) ∧
    (apply_obj_delta m store key = .ok (m2, s2, some e) →
      m2.base.value = m.base.value) := by
  constructor
  · intro h
    simp only [apply_field_delta] at h
    split at h
    · simp at h
    · rw [Prod.mk.injEq, Prod.mk.injEq] at h
      obtain ⟨hm, -, -⟩ := h
      rw [← hm, StatelitModel.setValue_value]
  · intro h
    simp only [apply_obj_delta] at h
    split at h
    · exact absurd h (by simp)
    · split at h
      · simp at h
      · injection h with h2
        rw [Prod.mk.injEq, Prod.mk.injEq] at h2
        obtain ⟨hm, -, -⟩ := h2
        rw [← hm, StatelitModel.setValue_value]
      · exact absurd h (by simp)

/-- C1, witness: the concrete model's constructor raises a cross-field
`ValidationError`, and the canonical value survives the failed single-field
edit unchanged. -/
theorem C1_failed_delta_rolls_back_witness :
    (apply_field_delta exModel exModelStore "edit" "a").1.base.value = exModel.base.value :=
  (C1_failed_delta_rolls_back exModel exModelStore "edit" "a"
      (.validationError "cross-field constraint")
      (apply_field_delta exModel exModelStore "edit" "a").1
      (apply_field_delta exModel exModelStore "edit" "a").2.1).1 rfl

/-- C3, counterexample to the claim as stated: with a registry holding both
`pair[int, int]` and `pair[any, any]`, an exactly-matched concrete argument
and a wildcard-matched argument contribute the same per-argument depth 1, so
both keys score total depth 3 for the query `pair[int, int]`; resolution
raises the ambiguous-dispatch `RuntimeError` naming both keys instead of
returning the converter registered for `pair[int, int]`. -/
theorem C3_pair_wildcard_counterexample :
    lenientDepth pairIntInt pairIntInt 1 = .ok (3, true) ∧
    lenientDepth pairIntInt pairAnyAny 1 = .ok (3, true) ∧
    find_implementation pairIntInt exRegPair exUniv
      = .error (.ambiguousGeneric [pairIntInt, pairAnyAny]) ∧
    find_implementation pairIntInt exRegPair exUniv ≠ .ok (some 1) := by
  refine ⟨rfl, rfl, rfl, fun hcontra => ?_⟩
  have h0 : find_implementation pairIntInt exRegPair exUniv
      = .error (.ambiguousGeneric [pairIntInt, pairAnyAny]) := rfl
  exact Except.noConfusion (h0.symm.trans hcontra)

/-- C3 (amended): with both `pair[int, int]` and `pair[any, any]` registered,
resolving exactly `pair[int, int]` raises `AmbiguousDispatch` naming the two
keys (a wildcard argument of a multi-parameter generic matches at the same
depth 1 as a concretely matched class argument, so the totals tie).  The
claimed specificity monotonicity does hold for single-parameter generics,
where the wildcard key `list[any]` is normalized to the bare origin `list`
and matches at depth 1 while `list[int]` matches at depth 2. -/
theorem C3_generic_specificity_amended :
    find_implementation pairIntInt exRegPair exUniv
      = .error (.ambiguousGeneric [pairIntInt, pairAnyAny]) ∧
    lenientDepth (.generic listClass [.cls intClass]) (.generic listClass [.cls intClass]) 1
      = .ok (2, true) ∧
    lenientDepth (.generic listClass [.cls intClass]) (.generic listClass [.anyFn]) 1
      = .ok (1, true) ∧
    find_implementation (.generic listClass [.cls intClass]) exRegList exUniv = .ok (some 1) :=
  ⟨rfl, rfl, rfl, rfl⟩

theorem pyLenientIssubclassE_unionForm (t : PyTy) :
    pyLenientIssubclassE PyTy.unionForm t = .ok false := by
  cases t <;> rfl

theorem wildcardCollapse_union (X : List PyTy) (h1 : X ≠ [PyTy.anyTy])
    (h2 : X ≠ [PyTy.anyFn]) :
    wildcardCollapse (.union X) = (.union X, some PyTy.unionForm) := by
  simp [wildcardCollapse, get_origin, get_args, h1, h2]

theorem lenientDepthF_unionForm (f g : Nat) (k : PyTy) (d : Nat) :
    lenientDepthF (f + 1) PyTy.unionForm k d = lenientDepthF (g + 1) PyTy.unionForm k d := by
  simp only [lenientDepthF]
  rcases hk : wildcardCollapse k with ⟨k2, ko⟩
  cases ko <;> rfl

theorem lenientDepthF_union (f g : Nat) (X Y : List PyTy) (k : PyTy) (d : Nat)
    (hX1 : X ≠ [PyTy.anyTy]) (hX2 : X ≠ [PyTy.anyFn])
    (hY1 : Y ≠ [PyTy.anyTy]) (hY2 : Y ≠ [PyTy.anyFn]) :
    lenientDepthF (f + 2) (.union X) k d = lenientDepthF (g + 2) (.union Y) k d := by
  show lenientDepthF ((f + 1) + 1) (.union X) k d = lenientDepthF ((g + 1) + 1) (.union Y) k d
  simp only [lenientDepthF]
  rw [wildcardCollapse_union X hX1 hX2, wildcardCollapse_union Y hY1 hY2]
  rcases hk : wildcardCollapse k with ⟨k2, ko⟩
  cases ko with
  | none => exact lenientDepthF_unionForm f g k2 d
  | some so => simp [pyLenientIssubclassE_unionForm]

theorem findTraversing_congr {V : Type} (clsA clsB : PyTy) (R : Registry V)
    (h : ∀ k, lenientDepth clsA k 1 = lenientDepth clsB k 1) :
    findTraversing clsA R = findTraversing clsB R := by
  have key : ∀ (l : List (PyTy × V)) (init : List PyTy × Int),
      (l.foldlM
        (fun (st : List PyTy × Int) kv =>
          match lenientDepth clsA kv.1 1 with
          | .error e => .error e
          | .ok (depth, is_valid) =>
            .ok (if is_valid then
              if (depth : Int) > st.2 then ([kv.1], (depth : Int))
              else if (depth : Int) = st.2 then (st.1 ++ [kv.1], st.2)
              else st
            else st))
        init : Except DispatchError (List PyTy × Int))
      = l.foldlM
        (fun (st : List PyTy × Int) kv =>
          match lenientDepth clsB kv.1 1 with
          | .error e => .error e
          | .ok (depth, is_valid) =>
            .ok (if is_valid then
              if (depth : Int) > st.2 then ([kv.1], (depth : Int))
              else if (depth : Int) = st.2 then (st.1 ++ [kv.1], st.2)
              else st
            else st))
        init := by
    intro l
    induction l with
    | nil => intro init; rfl
    | cons kv l ih =>
      intro init
      simp only [List.foldlM_cons, h kv.1]
      cases hres : lenientDepth clsB kv.1 1 with
      | error e => rfl
      | ok r =>
        rcases r with ⟨depth, is_valid⟩
        simp only [bind, Except.bind]
        exact ih _
  simp only [findTraversing]
  rw [key R ([], -1)]

theorem extract_nonunion (T : PyTy) (h : ∀ a, T ≠ PyTy.union a) :
    extract_type_from_optional T = T := by
  cases T with
  | union a => exact absurd rfl (h a)
  | cls c => rfl
  | generic o a => simp [extract_type_from_optional, get_origin]
  | unionForm => rfl
  | anyTy => rfl
  | anyFn => rfl

theorem pyOptional_nonunion (T : PyTy) (h : ∀ a, T ≠ PyTy.union a)
    (hn : T ≠ PyTy.cls noneClass) :
    pyOptional T = .union [T, PyTy.cls noneClass] := by
  cases T with
  | union a => exact absurd rfl (h a)
  | cls c => simp [pyOptional, hn]
  | generic o a => rfl
  | unionForm => rfl
  | anyTy => rfl
  | anyFn => rfl

theorem extract_pyOptional_nonunion (T : PyTy) (h : ∀ a, T ≠ PyTy.union a) :
    extract_type_from_optional (pyOptional T) = extract_type_from_optional T := by
  rw [extract_nonunion T h]
  by_cases hn : T = PyTy.cls noneClass
  · subst hn; rfl
  · rw [pyOptional_nonunion T h hn]
    simp [extract_type_from_optional, get_origin, get_args, hn]

theorem extract_union (X : List PyTy) :
    extract_type_from_optional (.union X) =
      (match X.filter (fun t => decide (t ≠ PyTy.cls noneClass)) with
       | [t] => t
       | _ => PyTy.union X) := by
  rfl

theorem append_noneClass_ne_anySingle (X : List PyTy) :
    X ++ [PyTy.cls noneClass] ≠ [PyTy.anyTy] ∧ X ++ [PyTy.cls noneClass] ≠ [PyTy.anyFn] := by
  constructor <;> (intro hcontra; rcases X with _ | ⟨a, as⟩ <;> simp_all)

/-- C5: resolving the optional wrapper of any type gives the same result as
resolving the type itself, `find_implementation(Optional[T], R) =
find_implementation(T, R)` — for a single-type optional because the wrapper
is unwrapped before any lookup, and for a multi-type union because the depth
scoring of a union query is independent of the union's members. -/
theorem C5_resolve_optional {V : Type} (T : PyTy) (R : Registry V) (univ : List PyClass) :
    find_implementation (pyOptional T) R univ = find_implementation T R univ := by
  by_cases hu : ∃ a, T = PyTy.union a
  · obtain ⟨args, rfl⟩ := hu
    by_cases hmem : PyTy.cls noneClass ∈ args
    · have hid : pyOptional (.union args) = .union args := by simp [pyOptional, hmem]
      rw [hid]
    · have hopt : pyOptional (.union args) = .union (args ++ [PyTy.cls noneClass]) := by
        simp [pyOptional, hmem]
      rw [hopt]
      have hfilter : (args ++ [PyTy.cls noneClass]).filter
            (fun t => decide (t ≠ PyTy.cls noneClass))
          = args.filter (fun t => decide (t ≠ PyTy.cls noneClass)) := by
        simp [List.filter_append]
      simp only [find_implementation, extract_union]
      rw [hfilter]
      cases hf : args.filter (fun t => decide (t ≠ PyTy.cls noneClass)) with
      | nil =>
        have hY1 : args ≠ [PyTy.anyTy] := by intro hc; subst hc; simp at hf
        have hY2 : args ≠ [PyTy.anyFn] := by intro hc; subst hc; simp at hf
        have hscore : ∀ k, lenientDepth (.union (args ++ [PyTy.cls noneClass])) k 1
            = lenientDepth (.union args) k 1 := by
          intro k
          exact lenientDepthF_union (PyTy.psizeList (args ++ [PyTy.cls noneClass]) + 1)
            (PyTy.psizeList args + 1) _ _ k 1
            (append_noneClass_ne_anySingle args).1 (append_noneClass_ne_anySingle args).2 hY1 hY2
        have hT := findTraversing_congr (.union (args ++ [PyTy.cls noneClass])) (.union args)
          R hscore
        simp only [get_origin]
        rw [hT]
      | cons t1 rest =>
        cases rest with
        | nil => rfl
        | cons t2 rest2 =>
          have hY1 : args ≠ [PyTy.anyTy] := by intro hc; subst hc; simp at hf
          have hY2 : args ≠ [PyTy.anyFn] := by intro hc; subst hc; simp at hf
          have hscore : ∀ k, lenientDepth (.union (args ++ [PyTy.cls noneClass])) k 1
              = lenientDepth (.union args) k 1 := by
            intro k
            exact lenientDepthF_union (PyTy.psizeList (args ++ [PyTy.cls noneClass]) + 1)
              (PyTy.psizeList args + 1) _ _ k 1
              (append_noneClass_ne_anySingle args).1 (append_noneClass_ne_anySingle args).2 hY1 hY2
          have hT := findTraversing_congr (.union (args ++ [PyTy.cls noneClass])) (.union args)
            R hscore
          simp only [get_origin]
          rw [hT]
  · have h : ∀ a, T ≠ PyTy.union a := fun a ha => hu ⟨a, ha⟩
    simp only [find_implementation]
    rw [extract_pyOptional_nonunion T h]

theorem nat_le_of_mem_max? (l : List Nat) (m a : Nat) (h : l.max? = some m) (ha : a ∈ l) :
    a ≤ m :=
  ((List.max?_eq_some_iff (fun a => le_refl a) (fun a b => max_choice a b)
    (fun _ _ _ => max_le_iff)).mp h).2 a ha

theorem max?_concat_nat (l : List Nat) (a : Nat) :
    (l ++ [a]).max? = some (match l.max? with | none => a | some m => max m a) := by
  cases l with
  | nil => rfl
  | cons x xs =>
    show (x :: (xs ++ [a])).max? = _
    rw [show (x :: (xs ++ [a])).max? = some ((xs ++ [a]).foldl max x) from rfl,
        List.foldl_append]
    rfl

theorem traversing_fold_char {V : Type} (cls : PyTy) (l : List (PyTy × V))
    (hok : ∀ k ∈ l.map Prod.fst, scoreOk cls k = true) :
    (l.foldlM
      (fun (st : List PyTy × Int) kv =>
        match lenientDepth cls kv.1 1 with
        | .error e => .error e
        | .ok (depth, is_valid) =>
          .ok (if is_valid then
            if (depth : Int) > st.2 then ([kv.1], (depth : Int))
            else if (depth : Int) = st.2 then (st.1 ++ [kv.1], st.2)
            else st
          else st))
      ([], (-1 : Int)) : Except DispatchError (List PyTy × Int))
    = .ok (maxDepthKeys cls l,
        match ((l.map Prod.fst).filterMap (scoreOf cls)).max? with
        | none => (-1 : Int)
        | some m => (m : Int)) := by
  induction l using List.reverseRecOn with
  | nil => rfl
  | append_singleton l kv ih =>
    have hok2 : ∀ k ∈ l.map Prod.fst, scoreOk cls k = true := by
      intro k hk
      exact hok k (by simp [hk])
    have hkv : scoreOk cls kv.1 = true := hok kv.1 (by simp)
    rw [List.foldlM_append, ih hok2]
    simp only [bind, Except.bind, List.foldlM_cons, List.foldlM_nil, pure, Except.pure]
    cases hd : lenientDepth cls kv.1 1 with
    | error e => simp [scoreOk, hd] at hkv
    | ok r =>
      rcases r with ⟨d, valid⟩
      simp only [hd]
      cases valid with
      | false =>
        have hsco : scoreOf cls kv.1 = none := by simp [scoreOf, hd]
        have h1 : ((l ++ [kv]).map Prod.fst).filterMap (scoreOf cls)
            = (l.map Prod.fst).filterMap (scoreOf cls) := by
          simp [hsco]
        have h2 : maxDepthKeys cls (l ++ [kv]) = maxDepthKeys cls l := by
          simp only [maxDepthKeys, h1]
          cases hmx : ((l.map Prod.fst).filterMap (scoreOf cls)).max? with
          | none => rfl
          | some m => simp [List.filter_append, hsco]
        rw [h2, h1]
        simp
      | true =>
        have hsco : scoreOf cls kv.1 = some d := by simp [scoreOf, hd]
        have hkeys : ((l ++ [kv]).map Prod.fst).filterMap (scoreOf cls)
            = (l.map Prod.fst).filterMap (scoreOf cls) ++ [d] := by
          simp [hsco]
        cases hmx : ((l.map Prod.fst).filterMap (scoreOf cls)).max? with
        | none =>
          have hnil : (l.map Prod.fst).filterMap (scoreOf cls) = [] :=
            List.max?_eq_none_iff.mp hmx
          have hall : ∀ k ∈ l.map Prod.fst, scoreOf cls k = none :=
            List.filterMap_eq_nil_iff.mp hnil
          have hgt : ((d : Int) > (-1 : Int)) := by omega
          simp only [hmx, if_pos hgt, if_true]
          have hmax2 : (((l ++ [kv]).map Prod.fst).filterMap (scoreOf cls)).max? = some d := by
            rw [hkeys, hnil]
            rfl
          have hf1 : (l.map Prod.fst).filter (fun k => decide (scoreOf cls k = some d)) = [] := by
            apply List.filter_eq_nil_iff.mpr
            intro k hk
            simp [hall k hk]
          have hmk : maxDepthKeys cls (l ++ [kv]) = [kv.1] := by
            simp only [maxDepthKeys]
            rw [hmax2]
            dsimp only
            rw [List.map_append, List.filter_append, hf1]
            simp [hsco]
          rw [hmk, hmax2]
        | some m =>
          have hmax2 : (((l ++ [kv]).map Prod.fst).filterMap (scoreOf cls)).max?
              = some (max m d) := by
            rw [hkeys, max?_concat_nat, hmx]
          rcases Nat.lt_trichotomy d m with hdm | hdm | hdm
          · have hngt : ¬ ((d : Int) > (m : Int)) := by omega
            have hne : ¬ ((d : Int) = (m : Int)) := by omega
            simp only [hmx, if_neg hngt, if_neg hne, if_true]
            have hmaxeq : max m d = m := by omega
            have hf2 : ([kv.1].filter (fun k => decide (scoreOf cls k = some m))) = [] := by
              simp only [List.filter, hsco]
              have : ¬ ((some d : Option Nat) = some m) := by
                intro hc
                injection hc with hc2
                omega
              simp [this]
            have hmk : maxDepthKeys cls (l ++ [kv]) = maxDepthKeys cls l := by
              simp only [maxDepthKeys]
              rw [hmax2, hmaxeq, hmx]
              dsimp only
              rw [List.map_append]
              simp only [List.map_cons, List.map_nil]
              rw [List.filter_append, hf2]
              simp
            rw [hmk, hmax2, hmaxeq]
          · subst hdm
            have hngt : ¬ ((d : Int) > (d : Int)) := by omega
            simp only [hmx, if_neg hngt, if_pos rfl, if_true]
            have hmaxeq : max d d = d := by omega
            have hmk : maxDepthKeys cls (l ++ [kv]) = maxDepthKeys cls l ++ [kv.1] := by
              simp only [maxDepthKeys]
              rw [hmax2, hmaxeq, hmx]
              dsimp only
              rw [List.map_append, List.filter_append]
              simp [hsco]
            rw [hmk, hmax2, hmaxeq]
          · have hgt : ((d : Int) > (m : Int)) := by omega
            simp only [hmx, if_pos hgt, if_true]
            have hmaxeq : max m d = d := by omega
            have hf1 : (l.map Prod.fst).filter (fun k => decide (scoreOf cls k = some d)) = [] := by
              apply List.filter_eq_nil_iff.mpr
              intro k hk
              intro hkd
              have hmem : d ∈ (l.map Prod.fst).filterMap (scoreOf cls) := by
                apply List.mem_filterMap.mpr
                exact ⟨k, hk, by simpa using hkd⟩
              have := nat_le_of_mem_max? _ m d hmx hmem
              omega
            have hmk : maxDepthKeys cls (l ++ [kv]) = [kv.1] := by
              simp only [maxDepthKeys]
              rw [hmax2, hmaxeq]
              dsimp only
              rw [List.map_append, List.filter_append, hf1]
              simp [hsco]
            rw [hmk, hmax2, hmaxeq]

theorem lookupReg_isSome_of_mem_keys {V : Type} (R : Registry V) (k : PyTy)
    (h : k ∈ R.map Prod.fst) : (lookupReg R k).isSome := by
  obtain ⟨kv, hkv, rfl⟩ := List.mem_map.mp h
  have hfind : (List.find? (fun kv2 => decide (kv2.1 = kv.1)) R).isSome :=
    List.find?_isSome.mpr ⟨kv, hkv, by simp⟩
  obtain ⟨x, hx⟩ := Option.isSome_iff_exists.mp hfind
  simp [lookupReg, hx]


/-- C4: for a generic (parameterized, non-optional-wrapped) query, with the
claim-side maximal-depth key set `maxDepthKeys` and crash-free scoring: an
empty set makes resolution return none; a singleton set makes resolution
return exactly that key's registered converter; a depth tie of two or more
keys makes resolution raise the ambiguous-dispatch error naming the tied
candidates rather than returning either one. -/

theorem C4_generic_dispatch {V : Type} (cls : PyTy) (R : Registry V) (univ : List PyClass)
    (hstable : extract_type_from_optional cls = cls)
    (hgen : (get_origin cls).isSome)
    (hok : ∀ k ∈ R.map Prod.fst, scoreOk cls k = true) :
    (maxDepthKeys cls R = [] → find_implementation cls R univ = .ok none) ∧
    (∀ k, maxDepthKeys cls R = [k] →
      find_implementation cls R univ = .ok (lookupReg R k) ∧ (lookupReg R k).isSome) ∧
    (2 ≤ (maxDepthKeys cls R).length →
      find_implementation cls R univ = .error (.ambiguousGeneric (maxDepthKeys cls R))) := by
  have hfind : find_implementation cls R univ =
      match findTraversing cls R with
      | .error e => .error e
      | .ok k => .ok (k.bind (lookupReg R)) := by
    simp only [find_implementation, hstable]
    obtain ⟨o, ho⟩ := Option.isSome_iff_exists.mp hgen
    rw [ho]
  have htrav : findTraversing cls R =
      match maxDepthKeys cls R with
      | [k] => .ok (some k)
      | [] => .ok none
      | ks => .error (.ambiguousGeneric ks) := by
    simp only [findTraversing]
    rw [traversing_fold_char cls R hok]
  refine ⟨?_, ?_, ?_⟩
  · intro h0
    rw [hfind, htrav, h0]
    rfl
  · intro k hk
    constructor
    · rw [hfind, htrav, hk]
      rfl
    · have hkmem : k ∈ R.map Prod.fst := by
        have hmem : k ∈ maxDepthKeys cls R := by rw [hk]; simp
        revert hmem
        simp only [maxDepthKeys]
        cases hmx : ((R.map Prod.fst).filterMap (scoreOf cls)).max? with
        | none => intro hmem; exact absurd hmem (by simp)
        | some m => intro hmem; exact List.mem_of_mem_filter hmem
      exact lookupReg_isSome_of_mem_keys R k hkmem
  · intro h2
    rw [hfind, htrav]
    cases hmk : maxDepthKeys cls R with
    | nil => rw [hmk] at h2; simp at h2
    | cons k1 rest =>
      cases rest with
      | nil => rw [hmk] at h2; simp at h2
      | cons k2 rest2 => rfl


/-- C4, witness: the two `pair` keys tie at depth 3, and resolution raises
the ambiguity error naming both. -/
theorem C4_generic_dispatch_witness :
    maxDepthKeys pairIntInt exRegPair = [pairIntInt, pairAnyAny] ∧
    find_implementation pairIntInt exRegPair exUniv
      = .error (.ambiguousGeneric [pairIntInt, pairAnyAny]) := by
  have hmk : maxDepthKeys pairIntInt exRegPair = [pairIntInt, pairAnyAny] := rfl
  have h := (C4_generic_dispatch pairIntInt exRegPair exUniv rfl rfl (by decide)).2.2
    (by rw [hmk]; simp)
  rw [hmk] at h
  exact ⟨hmk, h⟩

theorem anyIsSubclassOf_iff (bs : List PyClass) (a : PyClass) :
    anyIsSubclassOf bs a = true ↔ ∃ b ∈ bs, isSubclassOf b a = true := by
  induction bs with
  | nil => simp [anyIsSubclassOf]
  | cons b bs ih =>
    simp only [anyIsSubclassOf, Bool.or_eq_true, ih, List.mem_cons]
    constructor
    · rintro (hb | ⟨x, hx, hxa⟩)
      · exact ⟨b, Or.inl rfl, hb⟩
      · exact ⟨x, Or.inr hx, hxa⟩
    · rintro ⟨x, hx | hx, hxa⟩
      · subst hx; exact Or.inl hxa
      · exact Or.inr ⟨x, hx, hxa⟩

theorem isSubclassOf_refl (c : PyClass) : isSubclassOf c c = true := by
  cases c with
  | mk n bs f => simp [isSubclassOf]

theorem isSubclassOf_elim {c a : PyClass} (h : isSubclassOf c a = true) :
    c = a ∨ ∃ b ∈ c.bases, isSubclassOf b a = true := by
  cases c with
  | mk n bs f =>
    simp only [isSubclassOf, Bool.or_eq_true, decide_eq_true_eq, anyIsSubclassOf_iff] at h
    simpa [PyClass.bases] using h

theorem isSubclassOf_of_base {c b a : PyClass} (hb : b ∈ c.bases)
    (h : isSubclassOf b a = true) : isSubclassOf c a = true := by
  cases c with
  | mk n bs f =>
    simp only [isSubclassOf, Bool.or_eq_true, anyIsSubclassOf_iff]
    exact Or.inr ⟨b, by simpa [PyClass.bases] using hb, h⟩

theorem psize_lt_of_mem_psizeList {b : PyClass} {bs : List PyClass} (hb : b ∈ bs) :
    PyClass.psize b < PyClass.psizeList bs := by
  induction bs with
  | nil => simp at hb
  | cons x xs ih =>
    rcases List.mem_cons.mp hb with rfl | hb2
    · simp [PyClass.psizeList]
      omega
    · have := ih hb2
      simp [PyClass.psizeList]
      omega

theorem psize_lt_of_mem_bases {c b : PyClass} (hb : b ∈ c.bases) :
    PyClass.psize b < PyClass.psize c := by
  cases c with
  | mk n bs f =>
    have := psize_lt_of_mem_psizeList (by simpa [PyClass.bases] using hb)
    simp [PyClass.psize]
    omega

theorem psize_le_of_isSubclassOf : ∀ (n : Nat) (c a : PyClass), PyClass.psize c ≤ n →
    isSubclassOf c a = true → PyClass.psize a ≤ PyClass.psize c := by
  intro n
  induction n with
  | zero =>
    intro c a hc _
    cases c with
    | mk nm bs f => simp [PyClass.psize] at hc
  | succ k ih =>
    intro c a hc h
    rcases isSubclassOf_elim h with rfl | ⟨b, hb, hba⟩
    · exact le_refl _
    · have hlt := psize_lt_of_mem_bases hb
      have := ih b a (by omega) hba
      omega

theorem c3MergeF_sound : ∀ (fuel : Nat) (seqs : List (List PyClass)) (res : List PyClass),
    c3MergeF fuel seqs = .ok res → ∀ x ∈ res, ∃ s ∈ seqs, x ∈ s := by
  intro fuel
  induction fuel with
  | zero => intro seqs res h; simp [c3MergeF] at h
  | succ n ih =>
    intro seqs res h x hx
    simp only [c3MergeF] at h
    split at h
    · injection h with h2
      subst h2
      simp at hx
    · split at h
      · exact absurd h (by simp)
      · rename_i hne c hc
        split at h
        · rename_i rest hrest
          injection h with h2
          subst h2
          rcases List.mem_cons.mp hx with rfl | hx2
          · have hcmem := List.mem_of_find?_eq_some hc
            obtain ⟨s, hs, hhead⟩ := List.mem_filterMap.mp hcmem
            exact ⟨s, (List.mem_filter.mp hs).1, List.mem_of_mem_head? hhead⟩
          · obtain ⟨s2, hs2, hx3⟩ := ih _ rest hrest x hx2
            obtain ⟨s, hs, rfl⟩ := List.mem_map.mp hs2
            have hxs : x ∈ s := by
              split at hx3
              · exact List.mem_of_mem_tail hx3
              · exact hx3
            exact ⟨s, (List.mem_filter.mp hs).1, hxs⟩
        · exact absurd h (by simp)

theorem c3MergeF_complete : ∀ (fuel : Nat) (seqs : List (List PyClass)) (res : List PyClass),
    c3MergeF fuel seqs = .ok res → ∀ s ∈ seqs, ∀ x ∈ s, x ∈ res := by
  intro fuel
  induction fuel with
  | zero => intro seqs res h; simp [c3MergeF] at h
  | succ n ih =>
    intro seqs res h s hs x hx
    simp only [c3MergeF] at h
    split at h
    · rename_i hempty
      have hsne : s ≠ [] := by intro hc; subst hc; simp at hx
      have hmemf : s ∈ seqs.filter (fun s => !s.isEmpty) :=
        List.mem_filter.mpr ⟨hs, by simpa [List.isEmpty_iff] using hsne⟩
      rw [List.isEmpty_iff] at hempty
      rw [hempty] at hmemf
      simp at hmemf
    · split at h
      · exact absurd h (by simp)
      · rename_i hne c hc
        split at h
        · rename_i rest hrest
          injection h with h2
          subst h2
          by_cases hxc : x = c
          · subst hxc; exact List.mem_cons_self ..
          · have hsne : s ≠ [] := by intro hcon; subst hcon; simp at hx
            have hmemf : s ∈ seqs.filter (fun s => !s.isEmpty) :=
              List.mem_filter.mpr ⟨hs, by simpa [List.isEmpty_iff] using hsne⟩
            have hs2 : (if s.head? = some c then s.tail else s)
                ∈ (seqs.filter (fun s => !s.isEmpty)).map
                  (fun s => if s.head? = some c then s.tail else s) :=
              List.mem_map_of_mem _ hmemf
            have hx2 : x ∈ (if s.head? = some c then s.tail else s) := by
              split
              · rename_i hhead
                cases s with
                | nil => simp at hx
                | cons y t =>
                  simp only [List.head?_cons, Option.some.injEq] at hhead
                  subst hhead
                  rcases List.mem_cons.mp hx with rfl | hxt
                  · exact absurd rfl hxc
                  · exact hxt
              · exact hx
            exact List.mem_cons_of_mem _ (ih _ rest hrest _ hs2 x hx2)
        · exact absurd h (by simp)

theorem c3MergeF_head : ∀ (fuel : Nat) (a : PyClass) (rest : List (List PyClass))
    (res : List PyClass), c3MergeF fuel ([a] :: rest) = .ok res →
    (∀ s ∈ rest, a ∉ s) → ∃ t, res = a :: t := by
  intro fuel a rest res h hnr
  cases fuel with
  | zero => simp [c3MergeF] at h
  | succ n =>
    simp only [c3MergeF] at h
    have hfilter : ([a] :: rest).filter (fun s => !s.isEmpty)
        = [a] :: rest.filter (fun s => !s.isEmpty) := by
      rw [List.filter_cons]
      simp
    rw [hfilter] at h
    split at h
    · rename_i hempty
      simp at hempty
    · have hfind : List.find?
          (fun c => ([a] :: rest.filter (fun s => !s.isEmpty)).all
            (fun s2 => !(decide (c ∈ s2.tail))))
          (a :: (rest.filter (fun s => !s.isEmpty)).filterMap List.head?)
          = some a := by
        apply List.find?_cons_of_pos
        simp only [List.all_cons, List.all_eq_true, Bool.and_eq_true]
        constructor
        · simp
        · intro s2 hs2
          have hs2r : s2 ∈ rest := (List.mem_filter.mp hs2).1
          have hans2 : a ∉ s2 := hnr s2 hs2r
          simp only [Bool.not_eq_eq_eq_not, Bool.not_true, decide_eq_false_iff_not]
          intro hc
          exact hans2 (List.mem_of_mem_tail hc)
      have hheads : ([a] :: rest.filter (fun s => !s.isEmpty)).filterMap List.head?
          = a :: (rest.filter (fun s => !s.isEmpty)).filterMap List.head? := by
        rfl
      rw [hheads, hfind] at h
      split at h
      · rename_i heqn
        exact absurd heqn (by simp)
      · rename_i c heqc
        injection heqc with heqc2
        subst heqc2
        split at h
        · rename_i result hresult
          injection h with h2
          exact ⟨result, h2.symm⟩
        · exact absurd h (by simp)

theorem exceptMapM_mem_of_mem_result {α β ε : Type} (f : α → Except ε β) :
    ∀ (l : List α) (ys : List β), l.mapM f = .ok ys →
      ∀ y ∈ ys, ∃ x ∈ l, f x = .ok y := by
  intro l
  induction l with
  | nil =>
    intro ys h y hy
    simp only [List.mapM_nil, pure, Except.pure] at h
    injection h with h2
    subst h2
    simp at hy
  | cons a l ih =>
    intro ys h y hy
    simp only [List.mapM_cons, bind, Except.bind, pure, Except.pure] at h
    cases ha : f a with
    | error e => rw [ha] at h; exact absurd h (by simp)
    | ok b =>
      rw [ha] at h
      cases hl : l.mapM f with
      | error e => rw [hl] at h; exact absurd h (by simp)
      | ok bs =>
        rw [hl] at h
        injection h with h2
        subst h2
        rcases List.mem_cons.mp hy with rfl | hy2
        · exact ⟨a, List.mem_cons_self .., ha⟩
        · obtain ⟨x, hx, hfx⟩ := ih bs hl y hy2
          exact ⟨x, List.mem_cons_of_mem _ hx, hfx⟩

theorem exceptMapM_mem_of_mem_arg {α β ε : Type} (f : α → Except ε β) :
    ∀ (l : List α) (ys : List β), l.mapM f = .ok ys →
      ∀ x ∈ l, ∃ y ∈ ys, f x = .ok y := by
  intro l
  induction l with
  | nil => intro ys h x hx; simp at hx
  | cons a l ih =>
    intro ys h x hx
    simp only [List.mapM_cons, bind, Except.bind, pure, Except.pure] at h
    cases ha : f a with
    | error e => rw [ha] at h; exact absurd h (by simp)
    | ok b =>
      rw [ha] at h
      cases hl : l.mapM f with
      | error e => rw [hl] at h; exact absurd h (by simp)
      | ok bs =>
        rw [hl] at h
        injection h with h2
        subst h2
        rcases List.mem_cons.mp hx with rfl | hx2
        · exact ⟨b, List.mem_cons_self .., ha⟩
        · obtain ⟨y, hy, hfy⟩ := ih bs hl x hx2
          exact ⟨y, List.mem_cons_of_mem _ hy, hfy⟩

theorem c3MroF_sound : ∀ (fuel : Nat) (c : PyClass) (m : List PyClass),
    c3MroF fuel c [] = .ok m → ∀ x ∈ m, isSubclassOf c x = true := by
  intro fuel
  induction fuel with
  | zero => intro c m h; simp [c3MroF] at h
  | succ n ih =>
    intro c m h x hx
    simp only [c3MroF, List.filter_nil, List.foldl_nil, List.mapM_nil, pure, Except.pure] at h
    split at h
    · exact absurd h (by simp)
    · rename_i e1 he1
      split at h
      · exact absurd h (by simp)
      · rename_i e3 he3
        obtain ⟨s, hs, hxs⟩ := c3MergeF_sound _ _ m h x hx
        simp only [List.append_assoc, List.mem_append, List.mem_singleton,
          List.mem_nil_iff, List.cons_append, List.nil_append, List.mem_cons,
          or_false, false_or] at hs
        rcases hs with hs | hs | hs | hs | hs | hs
        · subst hs
          rcases List.mem_singleton.mp hxs with rfl
          exact isSubclassOf_refl x
        · obtain ⟨b, hb, hfb⟩ := exceptMapM_mem_of_mem_result _ _ e1 he1 s hs
          have hbx := ih b s hfb x hxs
          exact isSubclassOf_of_base (List.take_subset _ _ hb) hbx
        · obtain ⟨b, hb, hfb⟩ := exceptMapM_mem_of_mem_result _ _ e3 he3 s hs
          have hbx := ih b s hfb x hxs
          exact isSubclassOf_of_base (List.drop_subset _ _ hb) hbx
        · subst hs
          exact isSubclassOf_of_base (List.take_subset _ _ hxs) (isSubclassOf_refl x)
        · subst hs
          simp at hxs
        · subst hs
          exact isSubclassOf_of_base (List.drop_subset _ _ hxs) (isSubclassOf_refl x)

theorem c3MroF_complete : ∀ (fuel : Nat) (c : PyClass) (m : List PyClass) (a : PyClass),
    c3MroF fuel c [] = .ok m → isSubclassOf c a = true → a ∈ m := by
  intro fuel
  induction fuel with
  | zero => intro c m a h; simp [c3MroF] at h
  | succ n ih =>
    intro c m a h hca
    simp only [c3MroF, List.filter_nil, List.foldl_nil, List.mapM_nil, pure, Except.pure] at h
    split at h
    · exact absurd h (by simp)
    · rename_i e1 he1
      split at h
      · exact absurd h (by simp)
      · rename_i e3 he3
        have hcomp := c3MergeF_complete _ _ m h
        rcases isSubclassOf_elim hca with rfl | ⟨b, hb, hba⟩
        · exact hcomp [c] (by simp) c (by simp)
        · rw [← List.take_append_drop
            (match List.findIdx? PyClass.abcFlag c.bases.reverse with
             | some i => c.bases.length - i
             | none => 0) c.bases] at hb
          rcases List.mem_append.mp hb with hbt | hbd
          · obtain ⟨mb, hmb, hfb⟩ := exceptMapM_mem_of_mem_arg _ _ e1 he1 b hbt
            have ha := ih b mb a hfb hba
            exact hcomp mb (by simp [hmb]) a ha
          · obtain ⟨mb, hmb, hfb⟩ := exceptMapM_mem_of_mem_arg _ _ e3 he3 b hbd
            have ha := ih b mb a hfb hba
            exact hcomp mb (by simp [hmb]) a ha

theorem c3MroF_head (fuel : Nat) (c : PyClass) (m : List PyClass)
    (h : c3MroF fuel c [] = .ok m) : ∃ t, m = c :: t := by
  cases fuel with
  | zero => simp [c3MroF] at h
  | succ n =>
    simp only [c3MroF, List.filter_nil, List.foldl_nil, List.mapM_nil, pure, Except.pure] at h
    split at h
    · exact absurd h (by simp)
    · rename_i e1 he1
      split at h
      · exact absurd h (by simp)
      · rename_i e3 he3
        simp only [List.cons_append, List.nil_append, List.append_nil] at h
        apply c3MergeF_head _ c _ m h
        intro s hs hcs
        simp only [List.append_assoc, List.mem_append, List.mem_singleton,
          List.mem_nil_iff, List.cons_append, List.nil_append, List.mem_cons,
          or_false, false_or] at hs
        rcases hs with hs | hs | hs | hs | hs
        · obtain ⟨b, hb, hfb⟩ := exceptMapM_mem_of_mem_result _ _ e1 he1 s hs
          have hsub := c3MroF_sound n b s hfb c hcs
          have h1 := psize_le_of_isSubclassOf (PyClass.psize b) b c (le_refl _) hsub
          have h2 := psize_lt_of_mem_bases (List.take_subset _ _ hb)
          omega
        · obtain ⟨b, hb, hfb⟩ := exceptMapM_mem_of_mem_result _ _ e3 he3 s hs
          have hsub := c3MroF_sound n b s hfb c hcs
          have h1 := psize_le_of_isSubclassOf (PyClass.psize b) b c (le_refl _) hsub
          have h2 := psize_lt_of_mem_bases (List.drop_subset _ _ hb)
          omega
        · subst hs
          have h2 := psize_lt_of_mem_bases (List.take_subset _ _ hcs)
          omega
        · subst hs
          simp at hcs
        · subst hs
          have h2 := psize_lt_of_mem_bases (List.drop_subset _ _ hcs)
          omega

theorem composeMro_collapse (c : PyClass) (m : List PyClass) (keys : List PyTy)
    (univ : List PyClass) (hm : c3Mro c [] = .ok m) :
    composeMro (.cls c) keys univ = c3Mro c [] := by
  have hmro : mroOf c = m := by simp [mroOf, hm]
  have hfilter : keys.filter (composeIsRelated (.cls c) (mroOf c)) = [] := by
    apply List.filter_eq_nil_iff.mpr
    intro typ _
    cases typ with
    | cls d =>
      by_cases hsub : isSubclassOf c d = true
      · have hdm : d ∈ m := c3MroF_complete _ c m d hm hsub
        simp [composeIsRelated, asClass, lenientIssubclass, hmro, hdm]
      · simp [composeIsRelated, asClass, lenientIssubclass, hsub]
    | generic o a => simp [composeIsRelated, asClass]
    | union a => simp [composeIsRelated, asClass]
    | unionForm => simp [composeIsRelated, asClass]
    | anyTy => simp [composeIsRelated, asClass]
    | anyFn => simp [composeIsRelated, asClass]
  simp only [composeMro, asClass, hfilter, List.filter_nil, List.filterMap_nil,
    List.foldl_nil]

theorem lookupReg_filter_enum {V : Type} (R : Registry V) (k : PyTy)
    (hk : lenientIssubclass k (.cls enumClass) = true) :
    lookupReg (R.filter (fun kv => lenientIssubclass kv.1 (.cls enumClass))) k
      = lookupReg R k := by
  suffices h : List.find? (fun kv => decide (kv.1 = k))
        (R.filter (fun kv => lenientIssubclass kv.1 (.cls enumClass)))
      = List.find? (fun kv => decide (kv.1 = k)) R by
    simp [lookupReg, h]
  induction R with
  | nil => rfl
  | cons kv rest ih =>
    rw [List.filter_cons]
    by_cases hkey : kv.1 = k
    · have hq : lenientIssubclass kv.1 (.cls enumClass) = true := hkey ▸ hk
      rw [if_pos hq]
      simp [List.find?_cons, hkey]
    · by_cases hq : lenientIssubclass kv.1 (.cls enumClass) = true
      · rw [if_pos hq]
        simpa [List.find?_cons, hkey] using ih
      · rw [if_neg hq]
        simpa [List.find?_cons, hkey] using ih

theorem memKeys_filter_enum {V : Type} (R : Registry V) (k : PyTy)
    (h : memKeys (R.filter (fun kv => lenientIssubclass kv.1 (.cls enumClass))) k = true) :
    lenientIssubclass k (.cls enumClass) = true := by
  simp only [memKeys, lookupReg] at h
  rcases hfind : List.find? (fun kv => decide (kv.1 = k))
      (R.filter (fun kv => lenientIssubclass kv.1 (.cls enumClass))) with _ | kv
  · rw [hfind] at h
    simp at h
  · have hmem := List.mem_of_find?_eq_some hfind
    have hpred := List.find?_some hfind
    have hk : kv.1 = k := of_decide_eq_true (by simpa using hpred)
    have hp := (List.mem_filter.mp hmem).2
    rwa [hk] at hp

theorem findSingleLoop_matched {V : Type} (R : Registry V) (clsMro rest : List PyClass)
    (mm : PyClass) (hrest : ∀ t ∈ rest, t ∈ clsMro) :
    findSingleLoop R clsMro rest (some mm) = .ok (lookupReg R (.cls mm)) := by
  cases rest with
  | nil => rfl
  | cons t ts =>
    have ht : t ∈ clsMro := hrest t (List.mem_cons_self t ts)
    simp [findSingleLoop, ht]

theorem findSingleLoop_none_char {V : Type} (R : Registry V) (clsMro : List PyClass) :
    ∀ (rest : List PyClass), (∀ t ∈ rest, t ∈ clsMro) →
    findSingleLoop R clsMro rest none =
      .ok ((rest.find? (fun t => memKeys R (.cls t))).bind (fun t => lookupReg R (.cls t))) := by
  intro rest
  induction rest with
  | nil => intro _; rfl
  | cons t ts ih =>
    intro hsub
    by_cases hmem : memKeys R (.cls t) = true
    · have h1 : findSingleLoop R clsMro (t :: ts) none = findSingleLoop R clsMro ts (some t) := by
        simp [findSingleLoop, hmem]
      rw [h1, findSingleLoop_matched R clsMro ts t (fun x hx => hsub x (List.mem_cons_of_mem t hx))]
      simp [List.find?_cons, hmem]
    · have h1 : findSingleLoop R clsMro (t :: ts) none = findSingleLoop R clsMro ts none := by
        simp [findSingleLoop, hmem]
      rw [h1, ih (fun x hx => hsub x (List.mem_cons_of_mem t hx))]
      simp [List.find?_cons, hmem]

theorem findSingleImpl_first {V : Type} (E : PyClass) (R : Registry V) (univ : List PyClass)
    (m : List PyClass) (hm : c3Mro E [] = .ok m) :
    findSingleImpl (.cls E) R univ =
      .ok ((m.find? (fun t => memKeys R (.cls t))).bind (fun t => lookupReg R (.cls t))) := by
  have hcomp : composeMro (.cls E) (R.map Prod.fst) univ = c3Mro E [] :=
    composeMro_collapse E m (R.map Prod.fst) univ hm
  have hmro : mroOf E = m := by simp [mroOf, hm]
  simp only [findSingleImpl, asClass, hcomp, hm, hmro]
  exact findSingleLoop_none_char R m m (fun t ht => ht)

theorem findSingleImpl_verbatim {V : Type} (T : PyClass) (R : Registry V)
    (univ : List PyClass) (m : List PyClass) (hm : c3Mro T [] = .ok m)
    (hmem : memKeys R (.cls T) = true) :
    findSingleImpl (.cls T) R univ = .ok (lookupReg R (.cls T)) := by
  obtain ⟨t, rfl⟩ := c3MroF_head _ T m hm
  rw [findSingleImpl_first T R univ (T :: t) hm]
  simp [List.find?_cons, hmem, Option.bind]

/-- C6: a non-generic class `T` whose hierarchy linearizes and that appears
verbatim as the registry key `cls T` resolves to exactly the converter stored
under that key: the linearization walk matches `T` at the head of its own MRO
before any more generic entry, on both the enum-priority path and the plain
path of `find_implementation`. -/
theorem C6_verbatim_key {V : Type} (T : PyClass) (R : Registry V) (univ : List PyClass)
    (m : List PyClass) (v : V) (hm : c3Mro T [] = .ok m)
    (hv : lookupReg R (.cls T) = some v) :
    find_implementation (.cls T) R univ = .ok (some v) := by
  have hmem : memKeys R (.cls T) = true := by simp [memKeys, hv]
  have hextract : extract_type_from_optional (.cls T) = .cls T := rfl
  simp only [find_implementation, hextract, get_origin]
  by_cases henum : lenientIssubclass (.cls T) (.cls enumClass) = true
  · rw [if_pos henum]
    have hv' : lookupReg (R.filter (fun kv => lenientIssubclass kv.1 (.cls enumClass)))
        (.cls T) = some v := by
      rw [lookupReg_filter_enum R (.cls T) henum]
      exact hv
    have hmem' : memKeys (R.filter (fun kv => lenientIssubclass kv.1 (.cls enumClass)))
        (.cls T) = true := by
      simp [memKeys, hv']
    rw [findSingleImpl_verbatim T _ univ m hm hmem', hv']
  · rw [if_neg henum]
    rw [findSingleImpl_verbatim T R univ m hm hmem, hv]

theorem C6_verbatim_key_witness :
    find_implementation (.cls aClass) exRegVerbatim exUniv = .ok (some 10) :=
  C6_verbatim_key aClass exRegVerbatim exUniv [aClass, objectClass] 10 rfl rfl

/-- C2: for an enum class `E` (a subclass of `Enum`, e.g. one derived from
both `str` and `Enum`) whose hierarchy linearizes, if the registry has an
entry applicable to `E` via an enum-derived key `K` (`E` subclasses `K`, `K`
subclasses `Enum`, `K` is a registry key), then `find_implementation`
returns a converter registered under an enum-derived key — never one only
reachable through a primitive key: the enum-priority pass restricts the
registry to enum-derived keys and its result is preferred. -/
theorem C2_enum_priority {V : Type} (E K : PyClass) (R : Registry V) (univ : List PyClass)
    (m : List PyClass) (hm : c3Mro E [] = .ok m)
    (hE : isSubclassOf E enumClass = true)
    (hEK : isSubclassOf E K = true)
    (hKenum : isSubclassOf K enumClass = true)
    (hKmem : memKeys R (.cls K) = true) :
    ∃ ck v, isSubclassOf ck enumClass = true ∧ lookupReg R (.cls ck) = some v ∧
      find_implementation (.cls E) R univ = .ok (some v) := by
  have hKmem' : memKeys (R.filter (fun kv => lenientIssubclass kv.1 (.cls enumClass)))
      (.cls K) = true := by
    have h1 : lookupReg (R.filter (fun kv => lenientIssubclass kv.1 (.cls enumClass)))
        (.cls K) = lookupReg R (.cls K) := lookupReg_filter_enum R (.cls K) hKenum
    simp only [memKeys] at hKmem ⊢
    rw [h1]
    exact hKmem
  have hK_in_m : K ∈ m := c3MroF_complete _ E m K hm hEK
  have hfind : (m.find? (fun t => memKeys
      (R.filter (fun kv => lenientIssubclass kv.1 (.cls enumClass))) (.cls t))).isSome := by
    apply List.find?_isSome.mpr
    exact ⟨K, hK_in_m, hKmem'⟩
  obtain ⟨t0, ht0⟩ := Option.isSome_iff_exists.mp hfind
  have ht0mem : memKeys (R.filter (fun kv => lenientIssubclass kv.1 (.cls enumClass)))
      (.cls t0) = true := by
    have := List.find?_some ht0
    simpa using this
  obtain ⟨v, hv'⟩ : ∃ v, lookupReg
      (R.filter (fun kv => lenientIssubclass kv.1 (.cls enumClass))) (.cls t0) = some v :=
    Option.isSome_iff_exists.mp ht0mem
  have ht0enum : lenientIssubclass (.cls t0) (.cls enumClass) = true :=
    memKeys_filter_enum R (.cls t0) ht0mem
  have hvR : lookupReg R (.cls t0) = some v := by
    rw [← lookupReg_filter_enum R (.cls t0) ht0enum]
    exact hv'
  refine ⟨t0, v, ht0enum, hvR, ?_⟩
  have hfs : findSingleImpl (.cls E)
      (R.filter (fun kv => lenientIssubclass kv.1 (.cls enumClass))) univ = .ok (some v) := by
    rw [findSingleImpl_first E _ univ m hm, ht0]
    simp [hv']
  have hextract : extract_type_from_optional (.cls E) = .cls E := rfl
  simp only [find_implementation, hextract, get_origin]
  rw [if_pos (show lenientIssubclass (.cls E) (.cls enumClass) = true from hE)]
  rw [hfs]

theorem C2_enum_priority_witness :
    ∃ ck v, isSubclassOf ck enumClass = true ∧ lookupReg exRegEnum (.cls ck) = some v ∧
      find_implementation (.cls someStrEnum) exRegEnum exUniv = .ok (some v) :=
  C2_enum_priority someStrEnum enumClass exRegEnum exUniv
    [someStrEnum, strClass, enumClass, objectClass] rfl rfl rfl rfl rfl
